import Mathlib

/-!
Verification of the `MLR-binary-variables` notebook (`MLR_dummy.ipynb`).

The notebook loads the cross-sectional wage table `WAGE.csv`, builds dummy
(one-hot / interaction) columns with `pd.get_dummies` and elementwise column
products, and fits several OLS specifications with
`smf.ols(formula, data).fit()`, printing each `summary()`.

The development below is a shallow embedding of that notebook:

* `Row` is one record of `WAGE.csv` (all 24 columns, as exact rationals).
* `getDummies`, `addProducts`, `addSingmale` embed the notebook's
  `pd.get_dummies(data, columns=['female','married'])` call and the
  `data_in["marrfem"] = data_in["female_1"]*data_in["married_1"]` (etc.)
  column definitions.
* Ordinary least squares is embedded in exact rational arithmetic:
  `ssr` is the sum of squared residuals, `IsOLS` says a coefficient vector
  minimises it (the external library's least-squares fit, which is not part
  of this repository, is modelled from the spec as a closed-form
  least-squares solve), `normalEq` is the normal-equations condition, and
  `qInv` is the explicit adjugate-based matrix inverse used to state the
  closed-form solution `(XᵀX)⁻¹ Xᵀ y`.
* The design matrices `designSingle`, `designMeans`, `designMulti`,
  `designMultiAlt`, `designInter` are the columns that the notebook's five
  wage/lwage formulas assemble from the frames `data` and `data_in`.
-/

namespace MLRDummy

open scoped Matrix

/-- One record of `WAGE.csv`, with the 24 columns listed in the notebook's
data description, in order.  All values are modelled as exact rationals. -/
structure Row where
  wage : ℚ
  educ : ℚ
  exper : ℚ
  tenure : ℚ
  nonwhite : ℚ
  female : ℚ
  married : ℚ
  numdep : ℚ
  smsa : ℚ
  northcen : ℚ
  south : ℚ
  west : ℚ
  construc : ℚ
  ndurman : ℚ
  trcommpu : ℚ
  trade : ℚ
  services : ℚ
  profserv : ℚ
  profocc : ℚ
  clerocc : ℚ
  servocc : ℚ
  lwage : ℚ
  expersq : ℚ
  tenursq : ℚ


/-- Modelled from the spec and the data description: `WAGE.csv` itself is not
in the repository, but its description declares `female` ("=1 if female") and
`married` ("=1 if married") to be 0/1 indicator columns. -/
def BinaryRow (r : Row) : Prop :=
  (r.female = 0 ∨ r.female = 1) ∧ (r.married = 0 ∨ r.married = 1)

instance (r : Row) : Decidable (BinaryRow r) := by
  unfold BinaryRow; infer_instance

/-- A record of `data_in = pd.get_dummies(data, columns=['female','married'])`:
`get_dummies` drops the expanded columns `female` and `married`, keeps every
other column, and appends one indicator column per observed level
(`female_0`, `female_1`, `married_0`, `married_1`). -/
structure RowG where
  wage : ℚ
  educ : ℚ
  exper : ℚ
  tenure : ℚ
  nonwhite : ℚ
  numdep : ℚ
  smsa : ℚ
  northcen : ℚ
  south : ℚ
  west : ℚ
  construc : ℚ
  ndurman : ℚ
  trcommpu : ℚ
  trade : ℚ
  services : ℚ
  profserv : ℚ
  profocc : ℚ
  clerocc : ℚ
  servocc : ℚ
  lwage : ℚ
  expersq : ℚ
  tenursq : ℚ
  female_0 : ℚ
  female_1 : ℚ
  married_0 : ℚ
  married_1 : ℚ


/-- A record of `data_in` after the notebook's three product-column
assignments `marrfem`, `marrmale`, `singfem`. -/
structure RowIn extends RowG where
  marrfem : ℚ
  marrmale : ℚ
  singfem : ℚ


/-- A record of `data_in` after the later assignment
`data_in["singmale"] = data_in["female_0"]*data_in["married_0"]`. -/
structure RowIn2 extends RowIn where
  singmale : ℚ


/-- The indicator column that `pd.get_dummies` produces for level `v`:
1 where the column equals `v`, 0 elsewhere. -/
def levelInd (v x : ℚ) : ℚ := if x = v then 1 else 0

/-- Row action of `pd.get_dummies(data, columns=['female','married'])` on a
row whose `female` and `married` values range over the levels 0 and 1. -/
def getDummies (r : Row) : RowG :=
  { wage := r.wage, educ := r.educ, exper := r.exper, tenure := r.tenure
    nonwhite := r.nonwhite, numdep := r.numdep, smsa := r.smsa
    northcen := r.northcen, south := r.south, west := r.west
    construc := r.construc, ndurman := r.ndurman, trcommpu := r.trcommpu
    trade := r.trade, services := r.services, profserv := r.profserv
    profocc := r.profocc, clerocc := r.clerocc, servocc := r.servocc
    lwage := r.lwage, expersq := r.expersq, tenursq := r.tenursq
    female_0 := levelInd 0 r.female, female_1 := levelInd 1 r.female
    married_0 := levelInd 0 r.married, married_1 := levelInd 1 r.married }

/-- Row action of the notebook's product-column assignments
`data_in["marrfem"] = data_in["female_1"]*data_in["married_1"]`,
`data_in["marrmale"] = data_in["female_0"]*data_in["married_1"]`,
`data_in["singfem"] = data_in["female_1"]*data_in["married_0"]`. -/
def addProducts (g : RowG) : RowIn :=
  { toRowG := g
    marrfem := g.female_1 * g.married_1
    marrmale := g.female_0 * g.married_1
    singfem := g.female_1 * g.married_0 }

/-- Row action of
`data_in["singmale"] = data_in["female_0"]*data_in["married_0"]`. -/
def addSingmale (x : RowIn) : RowIn2 :=
  { toRowIn := x, singmale := x.female_0 * x.married_0 }

/-- A row of `data_in` as it stands when the first multiple-category model is
fitted (after `get_dummies` and the three product columns). -/
def dataInRow (r : Row) : RowIn := addProducts (getDummies r)

/-- A row of `data_in` as it stands when the re-based model is fitted (after
`singmale` has also been added). -/
def dataIn2Row (r : Row) : RowIn2 := addSingmale (dataInRow r)

/-- The frame `data_in` built from the loaded frame `data`. -/
def dataInFrame (data : List Row) : List RowIn := data.map dataInRow

/-- The frame `data_in` after the `singmale` column is added to it. -/
def dataIn2Frame (data : List Row) : List RowIn2 :=
  (dataInFrame data).map addSingmale

/-- Response vector `wage` of a frame of rows. -/
def wageV (n : ℕ) (r : Fin n → Row) : Fin n → ℚ := fun i => (r i).wage

/-- Response vector `lwage` of a frame of rows. -/
def lwageV (n : ℕ) (r : Fin n → Row) : Fin n → ℚ := fun i => (r i).lwage

/-- Design matrix of `wage ~ 1 + female + educ + exper + tenure` (the first
`smf.ols` call), assembled from the frame `data`. -/
def designSingle (n : ℕ) (r : Fin n → Row) : Matrix (Fin n) (Fin 5) ℚ :=
  Matrix.of fun i j =>
    ![1, (r i).female, (r i).educ, (r i).exper, (r i).tenure] j

/-- Design matrix of the comparison-of-means model `wage ~ 1 + female`. -/
def designMeans (n : ℕ) (r : Fin n → Row) : Matrix (Fin n) (Fin 2) ℚ :=
  Matrix.of fun i j => ![1, (r i).female] j

/-- Design matrix of
`lwage ~ 1 + marrmale + marrfem + singfem + educ + exper + expersq + tenure + tenursq`,
assembled from the frame `data_in` (single men are the base group). -/
def designMulti (n : ℕ) (r : Fin n → Row) : Matrix (Fin n) (Fin 9) ℚ :=
  Matrix.of fun i j =>
    ![1, (dataInRow (r i)).marrmale, (dataInRow (r i)).marrfem,
      (dataInRow (r i)).singfem, (dataInRow (r i)).educ,
      (dataInRow (r i)).exper, (dataInRow (r i)).expersq,
      (dataInRow (r i)).tenure, (dataInRow (r i)).tenursq] j

/-- Design matrix of
`lwage ~ 1 + marrmale + singfem + singmale + educ + exper + expersq + tenure + tenursq`,
assembled from `data_in` after `singmale` is added (married women are the
base group). -/
def designMultiAlt (n : ℕ) (r : Fin n → Row) : Matrix (Fin n) (Fin 9) ℚ :=
  Matrix.of fun i j =>
    ![1, (dataIn2Row (r i)).marrmale, (dataIn2Row (r i)).singfem,
      (dataIn2Row (r i)).singmale, (dataIn2Row (r i)).educ,
      (dataIn2Row (r i)).exper, (dataIn2Row (r i)).expersq,
      (dataIn2Row (r i)).tenure, (dataIn2Row (r i)).tenursq] j

/-- Modelled from the spec: the design matrix that the formula
`lwage ~ 1 + C(female)*C(married) + educ + exper + expersq + tenure + tenursq`
expands to.  The formula layer is the external library's (it is not part of
this repository); with treatment coding against base level 0 its columns are
the intercept, `C(female)[T.1]`, `C(married)[T.1]`, their product
`C(female)[T.1]:C(married)[T.1]`, and the controls — exactly the terms listed
in the printed summary of that fit. -/
def designInterCat (n : ℕ) (r : Fin n → Row) : Matrix (Fin n) (Fin 9) ℚ :=
  Matrix.of fun i j =>
    ![1, levelInd 1 (r i).female, levelInd 1 (r i).married,
      levelInd 1 (r i).female * levelInd 1 (r i).married,
      (r i).educ, (r i).exper, (r i).expersq,
      (r i).tenure, (r i).tenursq] j

/-- Residual vector `y - X β` of a coefficient vector `β`. -/
def resid {n k : ℕ} (X : Matrix (Fin n) (Fin k) ℚ) (y : Fin n → ℚ)
    (b : Fin k → ℚ) : Fin n → ℚ :=
  fun i => y i - X.mulVec b i

/-- Sum of squared residuals of a coefficient vector. -/
def ssr {n k : ℕ} (X : Matrix (Fin n) (Fin k) ℚ) (y : Fin n → ℚ)
    (b : Fin k → ℚ) : ℚ :=
  Matrix.dotProduct (resid X y b) (resid X y b)

/-- The normal equations `Xᵀ (y - X β) = 0`. -/
def normalEq {n k : ℕ} (X : Matrix (Fin n) (Fin k) ℚ) (y : Fin n → ℚ)
    (b : Fin k → ℚ) : Prop :=
  Xᵀ.mulVec (resid X y b) = 0

/-- Modelled from the spec: what `smf.ols(...).fit()` returns.  The solver
itself is the external statistics library's and is not part of this
repository; the spec describes it as a closed-form least-squares solve, so a
fitted coefficient vector is modelled as a minimiser of the sum of squared
residuals. -/
def IsOLS {n k : ℕ} (X : Matrix (Fin n) (Fin k) ℚ) (y : Fin n → ℚ)
    (b : Fin k → ℚ) : Prop :=
  ∀ c : Fin k → ℚ, ssr X y b ≤ ssr X y c

/-- Full column rank of a design matrix: its columns are linearly
independent, i.e. `X v = 0` only for `v = 0`. -/
def FullColRank {n k : ℕ} (X : Matrix (Fin n) (Fin k) ℚ) : Prop :=
  ∀ v : Fin k → ℚ, X.mulVec v = 0 → v = 0

/-- Explicit (adjugate-based) inverse of a square rational matrix; agrees
with the genuine inverse whenever the determinant is nonzero. -/
def qInv {k : ℕ} (A : Matrix (Fin k) (Fin k) ℚ) : Matrix (Fin k) (Fin k) ℚ :=
  A.det⁻¹ • A.adjugate

/-- Sample mean of a vector. -/
def meanV {n : ℕ} (y : Fin n → ℚ) : ℚ := (∑ i, y i) / n

/-- Total sum of squares of the response about its mean. -/
def sstot {n : ℕ} (y : Fin n → ℚ) : ℚ := ∑ i, (y i - meanV y) ^ 2

/-- Modelled from the spec: the R-squared that `summary()` reports,
`1 - SSR/SST`. -/
def rSquared {n k : ℕ} (X : Matrix (Fin n) (Fin k) ℚ) (y : Fin n → ℚ)
    (b : Fin k → ℚ) : ℚ :=
  1 - ssr X y b / sstot y

/-- Modelled from the spec: the F-statistic that `summary()` reports for a
model with an intercept, `((SST - SSR)/df_model) / (SSR/df_resid)` with
`df_model = k - 1` and `df_resid = n - k`. -/
def fStat {n k : ℕ} (X : Matrix (Fin n) (Fin k) ℚ) (y : Fin n → ℚ)
    (b : Fin k → ℚ) : ℚ :=
  ((sstot y - ssr X y b) / ((k : ℚ) - 1)) / (ssr X y b / ((n : ℚ) - (k : ℚ)))

/-- One row of the coefficient table printed by `summary()`. -/
structure SummaryCol where
  coef : ℚ
  se : ℚ
  tval : ℚ

/-- Modelled from the spec: `summary()` reports, for each regressor, the
coefficient, its standard error, and the t statistic `coef / se`. -/
def summaryCol (c s : ℚ) : SummaryCol := ⟨c, s, c / s⟩

/-- The design matrix has an all-ones (intercept) column. -/
def hasIntercept {n k : ℕ} (X : Matrix (Fin n) (Fin k) ℚ) : Prop :=
  ∃ j : Fin k, ∀ i : Fin n, X i j = 1

/-- Change of basis expressing the columns of `designMulti` in terms of the
columns of `designMultiAlt` (valid on binary rows, where
`marrfem = 1 - marrmale - singfem - singmale`). -/
def reT : Matrix (Fin 9) (Fin 9) ℚ :=
  !![1, 0, 1, 0, 0, 0, 0, 0, 0;
     0, 1, -1, 0, 0, 0, 0, 0, 0;
     0, 0, -1, 1, 0, 0, 0, 0, 0;
     0, 0, -1, 0, 0, 0, 0, 0, 0;
     0, 0, 0, 0, 1, 0, 0, 0, 0;
     0, 0, 0, 0, 0, 1, 0, 0, 0;
     0, 0, 0, 0, 0, 0, 1, 0, 0;
     0, 0, 0, 0, 0, 0, 0, 1, 0;
     0, 0, 0, 0, 0, 0, 0, 0, 1]

/-- Change of basis expressing the columns of `designMultiAlt` in terms of
the columns of `designMulti` (valid on binary rows, where
`singmale = 1 - marrmale - marrfem - singfem`). -/
def reS : Matrix (Fin 9) (Fin 9) ℚ :=
  !![1, 0, 0, 1, 0, 0, 0, 0, 0;
     0, 1, 0, -1, 0, 0, 0, 0, 0;
     0, 0, 0, -1, 0, 0, 0, 0, 0;
     0, 0, 1, -1, 0, 0, 0, 0, 0;
     0, 0, 0, 0, 1, 0, 0, 0, 0;
     0, 0, 0, 0, 0, 1, 0, 0, 0;
     0, 0, 0, 0, 0, 0, 1, 0, 0;
     0, 0, 0, 0, 0, 0, 0, 1, 0;
     0, 0, 0, 0, 0, 0, 0, 0, 1]

/-- Change of basis expressing the columns of `designMulti` in terms of the
columns of `designInterCat` (valid on binary rows). -/
def catT : Matrix (Fin 9) (Fin 9) ℚ :=
  !![1, 0, 0, 0, 0, 0, 0, 0, 0;
     0, 0, 0, 1, 0, 0, 0, 0, 0;
     0, 1, 0, 0, 0, 0, 0, 0, 0;
     0, -1, 1, -1, 0, 0, 0, 0, 0;
     0, 0, 0, 0, 1, 0, 0, 0, 0;
     0, 0, 0, 0, 0, 1, 0, 0, 0;
     0, 0, 0, 0, 0, 0, 1, 0, 0;
     0, 0, 0, 0, 0, 0, 0, 1, 0;
     0, 0, 0, 0, 0, 0, 0, 0, 1]

/-- Change of basis expressing the columns of `designInterCat` in terms of
the columns of `designMulti` (valid on binary rows). -/
def catS : Matrix (Fin 9) (Fin 9) ℚ :=
  !![1, 0, 0, 0, 0, 0, 0, 0, 0;
     0, 0, 1, 0, 0, 0, 0, 0, 0;
     0, 1, 1, 1, 0, 0, 0, 0, 0;
     0, 1, 0, 0, 0, 0, 0, 0, 0;
     0, 0, 0, 0, 1, 0, 0, 0, 0;
     0, 0, 0, 0, 0, 1, 0, 0, 0;
     0, 0, 0, 0, 0, 0, 1, 0, 0;
     0, 0, 0, 0, 0, 0, 0, 1, 0;
     0, 0, 0, 0, 0, 0, 0, 0, 1]

/-- Mean of `wage` over the rows whose `female` column equals `v` — the
`mean` that `data.query("female == v")[...].describe()` prints. -/
def groupMean (n : ℕ) (r : Fin n → Row) (v : ℚ) : ℚ :=
  (∑ i ∈ Finset.univ.filter (fun i => (r i).female = v), (r i).wage) /
    ((Finset.univ.filter (fun i : Fin n => (r i).female = v)).card : ℚ)

/-- An `smf.ols` formula: response and right-hand-side terms as written in
the notebook. -/
structure Formula where
  response : String
  rhs : List String

/-- The six formulas fitted by the notebook's `smf.ols(...)` calls, in
order of appearance. -/
def notebookFormulas : List Formula :=
  [⟨"wage", ["1", "female", "educ", "exper", "tenure"]⟩,
   ⟨"wage", ["1", "female"]⟩,
   ⟨"lwage", ["1", "marrmale", "marrfem", "singfem", "educ", "exper",
              "expersq", "tenure", "tenursq"]⟩,
   ⟨"lwage", ["1", "marrmale", "singfem", "singmale", "educ", "exper",
              "expersq", "tenure", "tenursq"]⟩,
   ⟨"lwage", ["1", "C(female)*C(married)", "educ", "exper", "expersq",
              "tenure", "tenursq"]⟩,
   ⟨"lwage", ["1", "C(female)*educ", "exper", "expersq", "tenure",
              "tenursq"]⟩]

/-- Number of rows of the frame each of the six fits is run on: fits 1, 2,
5 and 6 use `data`, fit 3 uses `data_in`, fit 4 uses `data_in` with
`singmale` added. -/
def fitObsCounts (data : List Row) : List ℕ :=
  [data.length, data.length, (dataInFrame data).length,
   (dataIn2Frame data).length, data.length, data.length]

/-- A filesystem access made by the notebook. -/
inductive FsEvent where
  | read : String → FsEvent
  | write : String → FsEvent

/-- The notebook's filesystem accesses, in order: the single
`pd.read_csv("WAGE.csv")` in the load cell.  No cell writes to disk or to
any external store. -/
def fsTrace : List FsEvent := [FsEvent.read "WAGE.csv"]


/-- Boolean test for a write event in the filesystem trace. -/
def isWriteEv : FsEvent -> Bool :=
  fun e => match e with
  | FsEvent.write _ => true
  | FsEvent.read _ => false

/-- The notebook's in-memory frames: the loaded frame `data` and, once the
multiple-category section has run, the derived frame `data_in`. -/
structure NotebookState where
  data : List Row
  data_in : Option (List RowIn2)

/-- The frame effect of the multiple-category section (cells running
`pd.get_dummies`, the three product-column assignments, and the `singmale`
assignment): `pd.get_dummies` returns a new frame bound to `data_in`, and
every subsequent column assignment targets `data_in` only. -/
def multipleCategoriesSection (s : NotebookState) : NotebookState :=
  { s with data_in := some (dataIn2Frame s.data) }

/-- Helper for building concrete rows: only the columns the fitted models
touch vary, the rest are 0. -/
def mkRow (f m ed ex exq te teq lw w : ℚ) : Row :=
  ⟨w, ed, ex, te, 0, f, m, 0, 0, 0, 0, 0, 0, 0, 0, 0, 0, 0, 0, 0, 0, lw, exq, teq⟩

/-- Nine concrete binary rows whose `designMultiAlt` design matrix is lower
triangular with unit diagonal. -/
def altRows : Fin 9 → Row :=
  ![mkRow 1 1 0 0 0 0 0 1 1,
    mkRow 0 1 0 0 0 0 0 1 1,
    mkRow 1 0 0 0 0 0 0 1 1,
    mkRow 0 0 0 0 0 0 0 1 1,
    mkRow 1 1 1 0 0 0 0 1 1,
    mkRow 1 1 0 1 0 0 0 1 1,
    mkRow 1 1 0 0 1 0 0 1 1,
    mkRow 1 1 0 0 0 1 0 1 1,
    mkRow 1 1 0 0 0 0 1 1 1]

/-- Nine concrete binary rows whose `designInterCat` design matrix is lower
triangular with unit diagonal. -/
def catRows : Fin 9 → Row :=
  ![mkRow 0 0 0 0 0 0 0 1 1,
    mkRow 1 0 0 0 0 0 0 1 1,
    mkRow 0 1 0 0 0 0 0 1 1,
    mkRow 1 1 0 0 0 0 0 1 1,
    mkRow 0 0 1 0 0 0 0 1 1,
    mkRow 0 0 0 1 0 0 0 1 1,
    mkRow 0 0 0 0 1 0 0 1 1,
    mkRow 0 0 0 0 0 1 0 1 1,
    mkRow 0 0 0 0 0 0 1 1 1]

/-- Two concrete rows (one man, one woman) for the comparison-of-means
witness. -/
def meanRows : Fin 2 → Row :=
  ![mkRow 0 0 0 0 0 0 0 1 2,
    mkRow 1 0 0 0 0 0 0 1 4]

/-- A concrete sample row (the shape of the first record shown by
`data.head()`): a single woman. -/
def sampleRow : Row :=
  ⟨3, 11, 2, 0, 0, 1, 0, 2, 1, 0, 0, 1, 0, 0, 0, 0, 0, 0, 0, 0, 0, 1, 4, 0⟩

/-- A second concrete sample row (the shape of the fourth record shown by
`data.head()`): a married man. -/
def sampleRow2 : Row :=
  ⟨6, 8, 44, 28, 0, 0, 1, 0, 1, 0, 0, 1, 0, 0, 0, 0, 0, 0, 0, 1, 0, 2, 1936, 784⟩


/-- The residual vector as a vector-space expression. -/
lemma resid_eq {n k : ℕ} (X : Matrix (Fin n) (Fin k) ℚ) (y : Fin n → ℚ)
    (b : Fin k → ℚ) : resid X y b = y - X.mulVec b := rfl

/-- A dot product of a rational vector with itself is nonnegative. -/
lemma dot_self_nonneg {n : ℕ} (v : Fin n → ℚ) :
    0 ≤ Matrix.dotProduct v v := by
  have e : Matrix.dotProduct v v = ∑ i, v i * v i := rfl
  rw [e]
  exact Finset.sum_nonneg fun i _ => mul_self_nonneg (v i)

/-- Shifting the coefficients changes the residuals by `-X d`. -/
lemma resid_add {n k : ℕ} (X : Matrix (Fin n) (Fin k) ℚ) (y : Fin n → ℚ)
    (b d : Fin k → ℚ) : resid X y (b + d) = resid X y b - X.mulVec d := by
  funext i
  simp [resid, Matrix.mulVec_add]
  ring

/-- Expansion of the sum of squared residuals about a base coefficient
vector: the cross term is the normal-equations vector paired with the
shift. -/
lemma ssr_shift {n k : ℕ} (X : Matrix (Fin n) (Fin k) ℚ) (y : Fin n → ℚ)
    (b d : Fin k → ℚ) :
    ssr X y (b + d) = ssr X y b
      - 2 * Matrix.dotProduct (Xᵀ.mulVec (resid X y b)) d
      + Matrix.dotProduct (X.mulVec d) (X.mulVec d) := by
  have h1 : Matrix.dotProduct (resid X y b) (X.mulVec d)
      = Matrix.dotProduct (Xᵀ.mulVec (resid X y b)) d := by
    rw [Matrix.dotProduct_mulVec, Matrix.mulVec_transpose]
  have h2 := Matrix.dotProduct_comm (X.mulVec d) (resid X y b)
  unfold ssr
  rw [resid_add, Matrix.sub_dotProduct, Matrix.dotProduct_sub,
    Matrix.dotProduct_sub, h2, h1]
  ring

/-- A least-squares minimiser satisfies the normal equations. -/
lemma normalEq_of_isOLS {n k : ℕ} {X : Matrix (Fin n) (Fin k) ℚ}
    {y : Fin n → ℚ} {b : Fin k → ℚ} (h : IsOLS X y b) : normalEq X y b := by
  unfold normalEq
  by_contra hc
  set c := Xᵀ.mulVec (resid X y b) with hcdef
  have ha : 0 < Matrix.dotProduct c c := by
    rcases lt_or_eq_of_le (dot_self_nonneg c) with hlt | heq
    · exact hlt
    · exact absurd (Matrix.dotProduct_self_eq_zero.mp heq.symm) hc
  set a := Matrix.dotProduct c c with hadef
  set w := Matrix.dotProduct (X.mulVec c) (X.mulVec c) with hwdef
  have hw : 0 ≤ w := dot_self_nonneg _
  set t : ℚ := a / (w + 1) with htdef
  have htpos : 0 < t := div_pos ha (by linarith)
  have key := h (b + t • c)
  rw [ssr_shift] at key
  have hsm1 : Matrix.dotProduct c (t • c) = t * a := by
    rw [Matrix.dotProduct_smul, hadef, smul_eq_mul]
  have hsm2 : X.mulVec (t • c) = t • X.mulVec c := by
    rw [Matrix.mulVec_smul]
  rw [hsm1, hsm2, Matrix.smul_dotProduct, Matrix.dotProduct_smul,
    smul_eq_mul, smul_eq_mul] at key
  have hq : 0 ≤ -2 * (t * a) + t * (t * w) := by linarith
  have h3 : t * w ≤ a := by
    rw [htdef, div_mul_eq_mul_div, div_le_iff₀ (by linarith : (0:ℚ) < w + 1)]
    nlinarith
  nlinarith [mul_le_mul_of_nonneg_left h3 (le_of_lt htpos)]

/-- The normal equations characterise least-squares minimisers. -/
lemma isOLS_of_normalEq {n k : ℕ} {X : Matrix (Fin n) (Fin k) ℚ}
    {y : Fin n → ℚ} {b : Fin k → ℚ} (h : normalEq X y b) : IsOLS X y b := by
  intro c
  have h' : Xᵀ.mulVec (resid X y b) = 0 := h
  have hd := ssr_shift X y b (c - b)
  have e : b + (c - b) = c := by abel
  rw [e, h', Matrix.zero_dotProduct] at hd
  have := dot_self_nonneg (X.mulVec (c - b))
  linarith

/-- The normal equations in Gram-matrix form. -/
lemma normalEq_iff {n k : ℕ} (X : Matrix (Fin n) (Fin k) ℚ) (y : Fin n → ℚ)
    (b : Fin k → ℚ) :
    normalEq X y b ↔ (Xᵀ * X).mulVec b = Xᵀ.mulVec y := by
  unfold normalEq
  rw [resid_eq, Matrix.mulVec_sub, sub_eq_zero, Matrix.mulVec_mulVec]
  exact eq_comm

/-- Full column rank makes the Gram matrix `XᵀX` invertible. -/
lemma isUnit_xtx {n k : ℕ} {X : Matrix (Fin n) (Fin k) ℚ}
    (h : FullColRank X) : IsUnit (Xᵀ * X) := by
  rw [← Matrix.mulVec_injective_iff_isUnit]
  intro u v huv
  have hz : (Xᵀ * X).mulVec (u - v) = 0 := by
    rw [Matrix.mulVec_sub, huv, sub_self]
  have h0 : Matrix.dotProduct (X.mulVec (u - v)) (X.mulVec (u - v)) = 0 := by
    have e : Matrix.dotProduct (u - v) ((Xᵀ * X).mulVec (u - v))
        = Matrix.dotProduct (X.mulVec (u - v)) (X.mulVec (u - v)) := by
      rw [← Matrix.mulVec_mulVec, Matrix.dotProduct_mulVec,
        Matrix.vecMul_transpose]
    rw [← e, hz, Matrix.dotProduct_zero]
  have hXz : X.mulVec (u - v) = 0 := Matrix.dotProduct_self_eq_zero.mp h0
  exact sub_eq_zero.mp (h _ hXz)

/-- The explicit adjugate inverse is a left inverse of an invertible
matrix. -/
lemma qInv_mul {k : ℕ} {A : Matrix (Fin k) (Fin k) ℚ} (h : IsUnit A) :
    qInv A * A = 1 := by
  have hd : IsUnit A.det := (Matrix.isUnit_iff_isUnit_det A).mp h
  have hd0 : A.det ≠ 0 := isUnit_iff_ne_zero.mp hd
  unfold qInv
  rw [Matrix.smul_mul, Matrix.adjugate_mul, smul_smul,
    inv_mul_cancel₀ hd0, one_smul]

/-- Over a full-column-rank design the normal equations have at most one
solution. -/
lemma normalEq_unique {n k : ℕ} {X : Matrix (Fin n) (Fin k) ℚ}
    {y : Fin n → ℚ} {b1 b2 : Fin k → ℚ} (hrk : FullColRank X)
    (h1 : normalEq X y b1) (h2 : normalEq X y b2) : b1 = b2 := by
  have hu := isUnit_xtx hrk
  have hinj := Matrix.mulVec_injective_iff_isUnit.mpr hu
  apply hinj
  rw [(normalEq_iff X y b1).mp h1, (normalEq_iff X y b2).mp h2]

/-- Reparameterisation: if the two designs span each other's columns
(`XA = XB T`, `XB = XA S`), then pushing a normal-equations solution of the
first through `T` solves the normal equations of the second with the same
fitted values. -/
lemma reparam {n k : ℕ} {XA XB : Matrix (Fin n) (Fin k) ℚ}
    {T S : Matrix (Fin k) (Fin k) ℚ} (hT : XA = XB * T) (hS : XB = XA * S)
    {y : Fin n → ℚ} {bA : Fin k → ℚ} (hA : normalEq XA y bA) :
    normalEq XB y (T.mulVec bA) ∧
      XB.mulVec (T.mulVec bA) = XA.mulVec bA := by
  have hfit : XB.mulVec (T.mulVec bA) = XA.mulVec bA := by
    rw [Matrix.mulVec_mulVec, ← hT]
  have hA' : XAᵀ.mulVec (resid XA y bA) = 0 := hA
  refine ⟨?_, hfit⟩
  have hres : resid XB y (T.mulVec bA) = resid XA y bA := by
    rw [resid_eq, resid_eq, hfit]
  show XBᵀ.mulVec (resid XB y (T.mulVec bA)) = 0
  rw [hres, hS, Matrix.transpose_mul, ← Matrix.mulVec_mulVec, hA',
    Matrix.mulVec_zero]

lemma marrmale_eq (r : Row) :
    (dataIn2Row r).marrmale = levelInd 0 r.female * levelInd 1 r.married := rfl

lemma marrfem_eq (r : Row) :
    (dataIn2Row r).marrfem = levelInd 1 r.female * levelInd 1 r.married := rfl

lemma singfem_eq (r : Row) :
    (dataIn2Row r).singfem = levelInd 1 r.female * levelInd 0 r.married := rfl

lemma singmale_eq (r : Row) :
    (dataIn2Row r).singmale = levelInd 0 r.female * levelInd 0 r.married := rfl

/-- On a 0/1-valued column the two `get_dummies` indicators sum to 1. -/
lemma levelInd_add (x : ℚ) (h : x = 0 ∨ x = 1) :
    levelInd 0 x + levelInd 1 x = 1 := by
  rcases h with h | h <;> norm_num [levelInd, h]

/-- Each interaction dummy of a row is 0 or 1. -/
lemma dummy_mem_01 (r : Row) :
    ((dataIn2Row r).marrmale = 0 ∨ (dataIn2Row r).marrmale = 1) ∧
    ((dataIn2Row r).marrfem = 0 ∨ (dataIn2Row r).marrfem = 1) ∧
    ((dataIn2Row r).singfem = 0 ∨ (dataIn2Row r).singfem = 1) ∧
    ((dataIn2Row r).singmale = 0 ∨ (dataIn2Row r).singmale = 1) := by
  refine ⟨?_, ?_, ?_, ?_⟩ <;>
    simp only [marrmale_eq, marrfem_eq, singfem_eq, singmale_eq, levelInd] <;>
    split <;> split <;> norm_num

/-- On a binary row the four interaction dummies sum to 1. -/
lemma sum_dummies_eq_one (r : Row) (h : BinaryRow r) :
    (dataIn2Row r).marrmale + (dataIn2Row r).marrfem +
      (dataIn2Row r).singfem + (dataIn2Row r).singmale = 1 := by
  have hf := h.1
  have hm := h.2
  simp only [marrmale_eq, marrfem_eq, singfem_eq, singmale_eq]
  have e : (levelInd 0 r.female + levelInd 1 r.female) *
      (levelInd 0 r.married + levelInd 1 r.married) = 1 := by
    rw [levelInd_add _ hf, levelInd_add _ hm]; norm_num
  ring_nf
  ring_nf at e
  linarith [e]

/-- C1: for every regression fitted in the notebook, when the design matrix
has full column rank the coefficient vector returned by the (least-squares)
fit equals the closed-form normal-equations solution `(XᵀX)⁻¹ Xᵀ y`; the
estimate is characterised by this closed-form linear-algebra solve alone. -/
theorem C1_ols_closed_form {n k : ℕ} (X : Matrix (Fin n) (Fin k) ℚ)
    (y : Fin n → ℚ) (b : Fin k → ℚ) (hrk : FullColRank X)
    (hfit : IsOLS X y b) :
    b = (qInv (Xᵀ * X) * Xᵀ).mulVec y := by
  have hne := normalEq_of_isOLS hfit
  have he : (Xᵀ * X).mulVec b = Xᵀ.mulVec y := (normalEq_iff X y b).mp hne
  have hq : qInv (Xᵀ * X) * (Xᵀ * X) = 1 := qInv_mul (isUnit_xtx hrk)
  calc b = (1 : Matrix (Fin k) (Fin k) ℚ).mulVec b := (Matrix.one_mulVec b).symm
    _ = (qInv (Xᵀ * X) * (Xᵀ * X)).mulVec b := by rw [hq]
    _ = (qInv (Xᵀ * X)).mulVec ((Xᵀ * X).mulVec b) :=
        (Matrix.mulVec_mulVec b (qInv (Xᵀ * X)) (Xᵀ * X)).symm
    _ = (qInv (Xᵀ * X)).mulVec (Xᵀ.mulVec y) := by rw [he]
    _ = (qInv (Xᵀ * X) * Xᵀ).mulVec y := Matrix.mulVec_mulVec y (qInv (Xᵀ * X)) Xᵀ

/-- Witness for C1 at a concrete design: two observations on a lone
intercept column, response `(1, 3)`, fitted coefficient `2`. -/
theorem C1_ols_closed_form_witness :
    FullColRank (Matrix.of fun (_ : Fin 2) (_ : Fin 1) => (1 : ℚ)) ∧
    IsOLS (Matrix.of fun (_ : Fin 2) (_ : Fin 1) => (1 : ℚ)) ![1, 3] ![2] ∧
    (![2] : Fin 1 → ℚ) =
      (qInv ((Matrix.of fun (_ : Fin 2) (_ : Fin 1) => (1 : ℚ))ᵀ *
          (Matrix.of fun (_ : Fin 2) (_ : Fin 1) => (1 : ℚ))) *
        (Matrix.of fun (_ : Fin 2) (_ : Fin 1) => (1 : ℚ))ᵀ).mulVec ![1, 3] := by
  have hrk : FullColRank (Matrix.of fun (_ : Fin 2) (_ : Fin 1) => (1 : ℚ)) := by
    intro v hv
    have h0 := congrFun hv 0
    simp [Matrix.mulVec, Matrix.dotProduct, Fin.sum_univ_one] at h0
    funext i
    have hi : i = 0 := Subsingleton.elim i 0
    rw [hi]
    exact h0
  have hne : normalEq (Matrix.of fun (_ : Fin 2) (_ : Fin 1) => (1 : ℚ))
      ![1, 3] ![2] := by
    unfold normalEq resid
    funext j
    fin_cases j
    simp [Matrix.mulVec, Matrix.dotProduct, Fin.sum_univ_two, Fin.sum_univ_one]
    norm_num
  exact ⟨hrk, isOLS_of_normalEq hne,
    C1_ols_closed_form _ _ _ hrk (isOLS_of_normalEq hne)⟩

/-- C2: the interaction-dummy construction one-hot encodes the four
marital/gender groups: on every binary row of `data_in`, each of
`marrmale`, `marrfem`, `singfem`, `singmale` is 0 or 1 and the four sum
to 1, partitioning the rows into married men, married women, single women
and single men. -/
theorem C2_dummy_partition (r : Row) (h : BinaryRow r) :
    (((dataIn2Row r).marrmale = 0 ∨ (dataIn2Row r).marrmale = 1) ∧
     ((dataIn2Row r).marrfem = 0 ∨ (dataIn2Row r).marrfem = 1) ∧
     ((dataIn2Row r).singfem = 0 ∨ (dataIn2Row r).singfem = 1) ∧
     ((dataIn2Row r).singmale = 0 ∨ (dataIn2Row r).singmale = 1)) ∧
    (dataIn2Row r).marrmale + (dataIn2Row r).marrfem +
      (dataIn2Row r).singfem + (dataIn2Row r).singmale = 1 :=
  ⟨dummy_mem_01 r, sum_dummies_eq_one r h⟩

/-- Witness for C2 at the concrete single-woman sample row. -/
theorem C2_dummy_partition_witness :
    BinaryRow sampleRow ∧
    ((((dataIn2Row sampleRow).marrmale = 0 ∨ (dataIn2Row sampleRow).marrmale = 1) ∧
      ((dataIn2Row sampleRow).marrfem = 0 ∨ (dataIn2Row sampleRow).marrfem = 1) ∧
      ((dataIn2Row sampleRow).singfem = 0 ∨ (dataIn2Row sampleRow).singfem = 1) ∧
      ((dataIn2Row sampleRow).singmale = 0 ∨ (dataIn2Row sampleRow).singmale = 1)) ∧
     (dataIn2Row sampleRow).marrmale + (dataIn2Row sampleRow).marrfem +
       (dataIn2Row sampleRow).singfem + (dataIn2Row sampleRow).singmale = 1) := by
  have hb : BinaryRow sampleRow := ⟨Or.inr rfl, Or.inl rfl⟩
  exact ⟨hb, C2_dummy_partition sampleRow hb⟩

/-- C3: the one-hot expansion is a lossless round trip on the binary
columns: `female_1` is the original `female`, `female_0` is `1 - female`,
likewise for `married`, and each indicator pair sums to 1 on every row. -/
theorem C3_onehot_roundtrip (r : Row) (h : BinaryRow r) :
    (getDummies r).female_1 = r.female ∧
    (getDummies r).female_0 = 1 - r.female ∧
    (getDummies r).married_1 = r.married ∧
    (getDummies r).married_0 = 1 - r.married ∧
    (getDummies r).female_0 + (getDummies r).female_1 = 1 ∧
    (getDummies r).married_0 + (getDummies r).married_1 = 1 := by
  obtain ⟨hf, hm⟩ := h
  rcases hf with hf | hf <;> rcases hm with hm | hm <;>
    norm_num [getDummies, levelInd, hf, hm]

/-- Witness for C3 at the concrete married-man sample row. -/
theorem C3_onehot_roundtrip_witness :
    BinaryRow sampleRow2 ∧
    ((getDummies sampleRow2).female_1 = sampleRow2.female ∧
     (getDummies sampleRow2).female_0 = 1 - sampleRow2.female ∧
     (getDummies sampleRow2).married_1 = sampleRow2.married ∧
     (getDummies sampleRow2).married_0 = 1 - sampleRow2.married ∧
     (getDummies sampleRow2).female_0 + (getDummies sampleRow2).female_1 = 1 ∧
     (getDummies sampleRow2).married_0 + (getDummies sampleRow2).married_1 = 1) := by
  have hb : BinaryRow sampleRow2 := ⟨Or.inl rfl, Or.inr rfl⟩
  exact ⟨hb, C3_onehot_roundtrip sampleRow2 hb⟩

/-- C5: the notebook fits all four advertised kinds of specification: the
single-dummy models `wage ~ 1 + female + educ + exper + tenure` and
`wage ~ 1 + female`, the multiple-category dummy model on `lwage`, the
dummy-interaction model `C(female)*C(married)` with controls, and the
dummy-by-continuous model `C(female)*educ` with controls. -/
theorem C5_all_specifications :
    (⟨"wage", ["1", "female", "educ", "exper", "tenure"]⟩ : Formula)
        ∈ notebookFormulas ∧
    (⟨"wage", ["1", "female"]⟩ : Formula) ∈ notebookFormulas ∧
    (⟨"lwage", ["1", "marrmale", "marrfem", "singfem", "educ", "exper",
        "expersq", "tenure", "tenursq"]⟩ : Formula) ∈ notebookFormulas ∧
    (⟨"lwage", ["1", "C(female)*C(married)", "educ", "exper", "expersq",
        "tenure", "tenursq"]⟩ : Formula) ∈ notebookFormulas ∧
    (⟨"lwage", ["1", "C(female)*educ", "exper", "expersq", "tenure",
        "tenursq"]⟩ : Formula) ∈ notebookFormulas := by
  refine ⟨?_, ?_, ?_, ?_, ?_⟩ <;> simp [notebookFormulas]

/-- C6: no persistent state: the notebook's only filesystem access is the
single read of `WAGE.csv` (it writes nothing), and the multiple-category
section leaves the loaded frame `data` unchanged — `pd.get_dummies` returns
a fresh frame `data_in` and all new columns are added to `data_in` only. -/
theorem C6_no_persistent_state :
    (∀ s : NotebookState, (multipleCategoriesSection s).data = s.data) ∧
    fsTrace = [FsEvent.read "WAGE.csv"] ∧
    fsTrace.filter isWriteEv = [] :=
  ⟨fun _ => rfl, rfl, rfl⟩

/-- C7: dummy-variable construction preserves the row set: every one of the
six fits runs on a frame with exactly as many rows as the loaded `data`
frame, because `get_dummies` and the column assignments map rows
one-to-one. -/
theorem C7_row_count_preserved (data : List Row) :
    fitObsCounts data = [data.length, data.length, data.length,
      data.length, data.length, data.length] := by
  simp [fitObsCounts, dataInFrame, dataIn2Frame]

/-- C4: each printed summary reports, per regressor, a coefficient, a
standard error, and a t statistic equal to coefficient over standard error,
together with `R² = 1 - SSR/SST`, which lies in `[0, 1]` for any
least-squares fit of a specification containing an intercept. -/
theorem C4_summary_reports {n k : ℕ} (X : Matrix (Fin n) (Fin k) ℚ)
    (y : Fin n → ℚ) (b : Fin k → ℚ) (hint : hasIntercept X)
    (hfit : IsOLS X y b) :
    (∀ c s : ℚ, (summaryCol c s).coef = c ∧ (summaryCol c s).se = s ∧
      (summaryCol c s).tval = c / s) ∧
    rSquared X y b = 1 - ssr X y b / sstot y ∧
    0 ≤ rSquared X y b ∧ rSquared X y b ≤ 1 := by
  obtain ⟨j, hj⟩ := hint
  have hg : X.mulVec (fun l => if l = j then meanV y else 0) =
      fun _ => meanV y := by
    funext i
    show (∑ l, X i l * (if l = j then meanV y else 0)) = meanV y
    rw [Finset.sum_congr rfl
      (fun l _ => by rw [mul_ite, mul_zero])]
    rw [Finset.sum_ite_eq' Finset.univ j (fun l => X i l * meanV y)]
    rw [if_pos (Finset.mem_univ j), hj i, one_mul]
  have hsg : ssr X y (fun l => if l = j then meanV y else 0) = sstot y := by
    unfold ssr sstot
    have hr : resid X y (fun l => if l = j then meanV y else 0) =
        fun i => y i - meanV y := by
      funext i
      unfold resid
      rw [hg]
    rw [hr]
    show (∑ i, (y i - meanV y) * (y i - meanV y)) = ∑ i, (y i - meanV y) ^ 2
    exact Finset.sum_congr rfl fun i _ => (pow_two (y i - meanV y)).symm
  have hle : ssr X y b ≤ sstot y := by
    have h := hfit (fun l => if l = j then meanV y else 0)
    rw [hsg] at h
    exact h
  have h0 : 0 ≤ ssr X y b := dot_self_nonneg _
  have hT0 : 0 ≤ sstot y := Finset.sum_nonneg fun i _ => sq_nonneg _
  refine ⟨fun c s => ⟨rfl, rfl, rfl⟩, rfl, ?_, ?_⟩
  · rcases eq_or_lt_of_le hT0 with hT | hT
    · have hz : ssr X y b = 0 := le_antisymm (hT ▸ hle) h0
      unfold rSquared
      rw [hz, zero_div]
      norm_num
    · unfold rSquared
      have := (div_le_one hT).mpr hle
      linarith
  · unfold rSquared
    have := div_nonneg h0 hT0
    linarith

/-- Witness for C4 at the concrete intercept-only design of
`C1_ols_closed_form_witness`: `R²` there is 0. -/
theorem C4_summary_reports_witness :
    hasIntercept (Matrix.of fun (_ : Fin 2) (_ : Fin 1) => (1 : ℚ)) ∧
    IsOLS (Matrix.of fun (_ : Fin 2) (_ : Fin 1) => (1 : ℚ)) ![1, 3] ![2] ∧
    ((∀ c s : ℚ, (summaryCol c s).coef = c ∧ (summaryCol c s).se = s ∧
        (summaryCol c s).tval = c / s) ∧
      rSquared (Matrix.of fun (_ : Fin 2) (_ : Fin 1) => (1 : ℚ)) ![1, 3] ![2]
        = 1 - ssr (Matrix.of fun (_ : Fin 2) (_ : Fin 1) => (1 : ℚ)) ![1, 3] ![2] /
            sstot ![1, 3] ∧
      0 ≤ rSquared (Matrix.of fun (_ : Fin 2) (_ : Fin 1) => (1 : ℚ)) ![1, 3] ![2] ∧
      rSquared (Matrix.of fun (_ : Fin 2) (_ : Fin 1) => (1 : ℚ)) ![1, 3] ![2] ≤ 1) := by
  have hint : hasIntercept (Matrix.of fun (_ : Fin 2) (_ : Fin 1) => (1 : ℚ)) :=
    ⟨0, fun _ => rfl⟩
  have hne : normalEq (Matrix.of fun (_ : Fin 2) (_ : Fin 1) => (1 : ℚ))
      ![1, 3] ![2] := by
    unfold normalEq resid
    funext j
    fin_cases j
    simp [Matrix.mulVec, Matrix.dotProduct, Fin.sum_univ_two, Fin.sum_univ_one]
    norm_num
  exact ⟨hint, isOLS_of_normalEq hne,
    C4_summary_reports _ _ _ hint (isOLS_of_normalEq hne)⟩

/-- Evaluation of a 9-vector at index 5. -/
@[simp] lemma vec9_val5 {α : Type} (a0 a1 a2 a3 a4 a5 a6 a7 a8 : α) :
    ![a0, a1, a2, a3, a4, a5, a6, a7, a8] (5 : Fin 9) = a5 := rfl

/-- Evaluation of a 9-vector at index 6. -/
@[simp] lemma vec9_val6 {α : Type} (a0 a1 a2 a3 a4 a5 a6 a7 a8 : α) :
    ![a0, a1, a2, a3, a4, a5, a6, a7, a8] (6 : Fin 9) = a6 := rfl

/-- Evaluation of a 9-vector at index 7. -/
@[simp] lemma vec9_val7 {α : Type} (a0 a1 a2 a3 a4 a5 a6 a7 a8 : α) :
    ![a0, a1, a2, a3, a4, a5, a6, a7, a8] (7 : Fin 9) = a7 := rfl

/-- Evaluation of a 9-vector at index 8. -/
@[simp] lemma vec9_val8 {α : Type} (a0 a1 a2 a3 a4 a5 a6 a7 a8 : α) :
    ![a0, a1, a2, a3, a4, a5, a6, a7, a8] (8 : Fin 9) = a8 := rfl

/-- On binary rows the base-group change is a column reparameterisation:
`designMulti = designMultiAlt * reT`. -/
lemma designMulti_eq_alt_mul {n : ℕ} (r : Fin n → Row)
    (hb : ∀ i, BinaryRow (r i)) :
    designMulti n r = designMultiAlt n r * reT := by
  ext i j
  rcases hb i with ⟨hf, hm⟩
  rw [Matrix.mul_apply]
  fin_cases j <;> rcases hf with hf | hf <;> rcases hm with hm | hm <;>
    simp [designMulti, designMultiAlt, reT, dataInRow, dataIn2Row,
      addProducts, addSingmale, getDummies, levelInd, hf, hm,
      Fin.sum_univ_succ]

/-- On binary rows, conversely `designMultiAlt = designMulti * reS`. -/
lemma designMultiAlt_eq_multi_mul {n : ℕ} (r : Fin n → Row)
    (hb : ∀ i, BinaryRow (r i)) :
    designMultiAlt n r = designMulti n r * reS := by
  ext i j
  rcases hb i with ⟨hf, hm⟩
  rw [Matrix.mul_apply]
  fin_cases j <;> rcases hf with hf | hf <;> rcases hm with hm | hm <;>
    simp [designMulti, designMultiAlt, reS, dataInRow, dataIn2Row,
      addProducts, addSingmale, getDummies, levelInd, hf, hm,
      Fin.sum_univ_succ]

/-- On binary rows the formula-level categorical interaction spans the
manual dummies: `designMulti = designInterCat * catT`. -/
lemma designMulti_eq_cat_mul {n : ℕ} (r : Fin n → Row)
    (hb : ∀ i, BinaryRow (r i)) :
    designMulti n r = designInterCat n r * catT := by
  ext i j
  rcases hb i with ⟨hf, hm⟩
  rw [Matrix.mul_apply]
  fin_cases j <;> rcases hf with hf | hf <;> rcases hm with hm | hm <;>
    simp [designMulti, designInterCat, catT, dataInRow, dataIn2Row,
      addProducts, addSingmale, getDummies, levelInd, hf, hm,
      Fin.sum_univ_succ]

/-- On binary rows, conversely `designInterCat = designMulti * catS`. -/
lemma designInterCat_eq_multi_mul {n : ℕ} (r : Fin n → Row)
    (hb : ∀ i, BinaryRow (r i)) :
    designInterCat n r = designMulti n r * catS := by
  ext i j
  rcases hb i with ⟨hf, hm⟩
  rw [Matrix.mul_apply]
  fin_cases j <;> rcases hf with hf | hf <;> rcases hm with hm | hm <;>
    simp [designMulti, designInterCat, catS, dataInRow, dataIn2Row,
      addProducts, addSingmale, getDummies, levelInd, hf, hm,
      Fin.sum_univ_succ]

/-- Successor normalisation for ninth-order index arithmetic. -/
@[simp] lemma fin8_succ_two : Fin.succ (2 : Fin 8) = (3 : Fin 9) := rfl

/-- C8: changing the base group is a reparameterisation, not a different
model: on binary rows, fitting `lwage` on `{marrmale, singfem, singmale}`
plus the controls instead of `{marrmale, marrfem, singfem}` yields the same
fitted values, R-squared and F-statistic, and its `singfem` coefficient is
the difference `singfem - marrfem` of the first fit's coefficients. -/
theorem C8_base_group_reparam {n : ℕ} (r : Fin n → Row) (bA bB : Fin 9 → ℚ)
    (hb : ∀ i, BinaryRow (r i))
    (hA : IsOLS (designMulti n r) (lwageV n r) bA)
    (hB : IsOLS (designMultiAlt n r) (lwageV n r) bB)
    (hrk : FullColRank (designMultiAlt n r)) :
    (designMultiAlt n r).mulVec bB = (designMulti n r).mulVec bA ∧
    rSquared (designMultiAlt n r) (lwageV n r) bB
      = rSquared (designMulti n r) (lwageV n r) bA ∧
    fStat (designMultiAlt n r) (lwageV n r) bB
      = fStat (designMulti n r) (lwageV n r) bA ∧
    bB 2 = bA 3 - bA 2 := by
  have hT := designMulti_eq_alt_mul r hb
  have hS := designMultiAlt_eq_multi_mul r hb
  have hneA := normalEq_of_isOLS hA
  obtain ⟨hneB', hfitT⟩ := reparam hT hS hneA
  have hbb : bB = reT.mulVec bA :=
    normalEq_unique hrk (normalEq_of_isOLS hB) hneB'
  have hfit2 : (designMultiAlt n r).mulVec bB
      = (designMulti n r).mulVec bA := by
    rw [hbb]
    exact hfitT
  have hres : resid (designMultiAlt n r) (lwageV n r) bB
      = resid (designMulti n r) (lwageV n r) bA := by
    rw [resid_eq, resid_eq, hfit2]
  have hssr : ssr (designMultiAlt n r) (lwageV n r) bB
      = ssr (designMulti n r) (lwageV n r) bA := by
    unfold ssr
    rw [hres]
  refine ⟨hfit2, ?_, ?_, ?_⟩
  · unfold rSquared
    rw [hssr]
  · unfold fStat
    rw [hssr]
  · rw [hbb]
    show (reT.mulVec bA) 2 = bA 3 - bA 2
    simp [Matrix.mulVec, Matrix.dotProduct, reT, Fin.sum_univ_succ]
    ring

/-- C9: the formula-level categorical interaction `C(female)*C(married)` is
equivalent to the manual dummy construction: on binary rows the two fits
have the same fitted values, R-squared and F-statistic, the
`C(female)[T.1]` coefficient equals the manual `singfem` coefficient,
`C(married)[T.1]` equals `marrmale`, and the interaction coefficient
equals `marrfem - marrmale - singfem`. -/
theorem C9_interaction_formula_equiv {n : ℕ} (r : Fin n → Row)
    (bA bB : Fin 9 → ℚ) (hb : ∀ i, BinaryRow (r i))
    (hA : IsOLS (designMulti n r) (lwageV n r) bA)
    (hB : IsOLS (designInterCat n r) (lwageV n r) bB)
    (hrk : FullColRank (designInterCat n r)) :
    (designInterCat n r).mulVec bB = (designMulti n r).mulVec bA ∧
    rSquared (designInterCat n r) (lwageV n r) bB
      = rSquared (designMulti n r) (lwageV n r) bA ∧
    fStat (designInterCat n r) (lwageV n r) bB
      = fStat (designMulti n r) (lwageV n r) bA ∧
    bB 1 = bA 3 ∧ bB 2 = bA 1 ∧ bB 3 = bA 2 - bA 1 - bA 3 := by
  have hT := designMulti_eq_cat_mul r hb
  have hS := designInterCat_eq_multi_mul r hb
  have hneA := normalEq_of_isOLS hA
  obtain ⟨hneB', hfitT⟩ := reparam hT hS hneA
  have hbb : bB = catT.mulVec bA :=
    normalEq_unique hrk (normalEq_of_isOLS hB) hneB'
  have hfit2 : (designInterCat n r).mulVec bB
      = (designMulti n r).mulVec bA := by
    rw [hbb]
    exact hfitT
  have hres : resid (designInterCat n r) (lwageV n r) bB
      = resid (designMulti n r) (lwageV n r) bA := by
    rw [resid_eq, resid_eq, hfit2]
  have hssr : ssr (designInterCat n r) (lwageV n r) bB
      = ssr (designMulti n r) (lwageV n r) bA := by
    unfold ssr
    rw [hres]
  refine ⟨hfit2, ?_, ?_, ?_, ?_, ?_⟩
  · unfold rSquared
    rw [hssr]
  · unfold fStat
    rw [hssr]
  · rw [hbb]
    show (catT.mulVec bA) 1 = bA 3
    simp [Matrix.mulVec, Matrix.dotProduct, catT, Fin.sum_univ_succ]
  · rw [hbb]
    show (catT.mulVec bA) 2 = bA 1
    simp [Matrix.mulVec, Matrix.dotProduct, catT, Fin.sum_univ_succ]
  · rw [hbb]
    show (catT.mulVec bA) 3 = bA 2 - bA 1 - bA 3
    simp [Matrix.mulVec, Matrix.dotProduct, catT, Fin.sum_univ_succ]
    ring

/-- The nine `altRows` are binary. -/
lemma altRows_binary : ∀ i, BinaryRow (altRows i) := by
  intro i
  fin_cases i <;> norm_num [BinaryRow, altRows, mkRow]

/-- The nine `catRows` are binary. -/
lemma catRows_binary : ∀ i, BinaryRow (catRows i) := by
  intro i
  fin_cases i <;> norm_num [BinaryRow, catRows, mkRow]

/-- The re-based design on `altRows` is lower triangular. -/
lemma altRows_lowerTri :
    (designMultiAlt 9 altRows).BlockTriangular OrderDual.toDual := by
  intro i j hij
  fin_cases i <;> fin_cases j <;>
    first
      | exact absurd hij (by decide)
      | norm_num [designMultiAlt, altRows, mkRow, dataIn2Row, dataInRow,
          addProducts, addSingmale, getDummies, levelInd]

/-- The re-based design on `altRows` has determinant 1. -/
lemma altRows_det : (designMultiAlt 9 altRows).det = 1 := by
  rw [Matrix.det_of_lowerTriangular _ altRows_lowerTri]
  apply Finset.prod_eq_one
  intro i _
  fin_cases i <;>
    norm_num [designMultiAlt, altRows, mkRow, dataIn2Row, dataInRow,
      addProducts, addSingmale, getDummies, levelInd]

/-- The re-based design on `altRows` has full column rank. -/
lemma altRows_fullrank : FullColRank (designMultiAlt 9 altRows) := by
  intro v hv
  exact Matrix.eq_zero_of_mulVec_eq_zero (by rw [altRows_det]; norm_num) hv

/-- The categorical-formula design on `catRows` is lower triangular. -/
lemma catRows_lowerTri :
    (designInterCat 9 catRows).BlockTriangular OrderDual.toDual := by
  intro i j hij
  fin_cases i <;> fin_cases j <;>
    first
      | exact absurd hij (by decide)
      | norm_num [designInterCat, catRows, mkRow, levelInd]

/-- The categorical-formula design on `catRows` has determinant 1. -/
lemma catRows_det : (designInterCat 9 catRows).det = 1 := by
  rw [Matrix.det_of_lowerTriangular _ catRows_lowerTri]
  apply Finset.prod_eq_one
  intro i _
  fin_cases i <;> norm_num [designInterCat, catRows, mkRow, levelInd]

/-- The categorical-formula design on `catRows` has full column rank. -/
lemma catRows_fullrank : FullColRank (designInterCat 9 catRows) := by
  intro v hv
  exact Matrix.eq_zero_of_mulVec_eq_zero (by rw [catRows_det]; norm_num) hv

/-- On `altRows` the intercept-only coefficient vector fits `lwage = 1`
exactly under the manual-dummy design. -/
lemma altRows_resid_multi :
    resid (designMulti 9 altRows) (lwageV 9 altRows)
      ![1, 0, 0, 0, 0, 0, 0, 0, 0] = 0 := by
  funext i
  fin_cases i <;>
    norm_num [resid, lwageV, designMulti, altRows, mkRow, dataInRow,
      addProducts, getDummies, levelInd, Matrix.mulVec, Matrix.dotProduct,
      Fin.sum_univ_succ]

/-- On `altRows` the intercept-only coefficient vector fits `lwage = 1`
exactly under the re-based design. -/
lemma altRows_resid_alt :
    resid (designMultiAlt 9 altRows) (lwageV 9 altRows)
      ![1, 0, 0, 0, 0, 0, 0, 0, 0] = 0 := by
  funext i
  fin_cases i <;>
    norm_num [resid, lwageV, designMultiAlt, altRows, mkRow, dataIn2Row,
      dataInRow, addProducts, addSingmale, getDummies, levelInd,
      Matrix.mulVec, Matrix.dotProduct, Fin.sum_univ_succ]

/-- On `catRows` the intercept-only coefficient vector fits `lwage = 1`
exactly under the manual-dummy design. -/
lemma catRows_resid_multi :
    resid (designMulti 9 catRows) (lwageV 9 catRows)
      ![1, 0, 0, 0, 0, 0, 0, 0, 0] = 0 := by
  funext i
  fin_cases i <;>
    norm_num [resid, lwageV, designMulti, catRows, mkRow, dataInRow,
      addProducts, getDummies, levelInd, Matrix.mulVec, Matrix.dotProduct,
      Fin.sum_univ_succ]

/-- On `catRows` the intercept-only coefficient vector fits `lwage = 1`
exactly under the categorical-formula design. -/
lemma catRows_resid_cat :
    resid (designInterCat 9 catRows) (lwageV 9 catRows)
      ![1, 0, 0, 0, 0, 0, 0, 0, 0] = 0 := by
  funext i
  fin_cases i <;>
    norm_num [resid, lwageV, designInterCat, catRows, mkRow, levelInd,
      Matrix.mulVec, Matrix.dotProduct, Fin.sum_univ_succ]

/-- Normal equations for `altRows` under the manual-dummy design. -/
lemma altRows_ne_multi :
    normalEq (designMulti 9 altRows) (lwageV 9 altRows)
      ![1, 0, 0, 0, 0, 0, 0, 0, 0] := by
  unfold normalEq
  rw [altRows_resid_multi, Matrix.mulVec_zero]

/-- Normal equations for `altRows` under the re-based design. -/
lemma altRows_ne_alt :
    normalEq (designMultiAlt 9 altRows) (lwageV 9 altRows)
      ![1, 0, 0, 0, 0, 0, 0, 0, 0] := by
  unfold normalEq
  rw [altRows_resid_alt, Matrix.mulVec_zero]

/-- Normal equations for `catRows` under the manual-dummy design. -/
lemma catRows_ne_multi :
    normalEq (designMulti 9 catRows) (lwageV 9 catRows)
      ![1, 0, 0, 0, 0, 0, 0, 0, 0] := by
  unfold normalEq
  rw [catRows_resid_multi, Matrix.mulVec_zero]

/-- Normal equations for `catRows` under the categorical-formula design. -/
lemma catRows_ne_cat :
    normalEq (designInterCat 9 catRows) (lwageV 9 catRows)
      ![1, 0, 0, 0, 0, 0, 0, 0, 0] := by
  unfold normalEq
  rw [catRows_resid_cat, Matrix.mulVec_zero]

/-- Witness for C8 on the nine concrete `altRows`, both fits being the
intercept-only coefficient vector. -/
theorem C8_base_group_reparam_witness :
    (∀ i, BinaryRow (altRows i)) ∧
    IsOLS (designMulti 9 altRows) (lwageV 9 altRows)
      ![1, 0, 0, 0, 0, 0, 0, 0, 0] ∧
    IsOLS (designMultiAlt 9 altRows) (lwageV 9 altRows)
      ![1, 0, 0, 0, 0, 0, 0, 0, 0] ∧
    FullColRank (designMultiAlt 9 altRows) ∧
    ((designMultiAlt 9 altRows).mulVec ![1, 0, 0, 0, 0, 0, 0, 0, 0]
        = (designMulti 9 altRows).mulVec ![1, 0, 0, 0, 0, 0, 0, 0, 0] ∧
      rSquared (designMultiAlt 9 altRows) (lwageV 9 altRows)
          ![1, 0, 0, 0, 0, 0, 0, 0, 0]
        = rSquared (designMulti 9 altRows) (lwageV 9 altRows)
            ![1, 0, 0, 0, 0, 0, 0, 0, 0] ∧
      fStat (designMultiAlt 9 altRows) (lwageV 9 altRows)
          ![1, 0, 0, 0, 0, 0, 0, 0, 0]
        = fStat (designMulti 9 altRows) (lwageV 9 altRows)
            ![1, 0, 0, 0, 0, 0, 0, 0, 0] ∧
      (![1, 0, 0, 0, 0, 0, 0, 0, 0] : Fin 9 → ℚ) 2
        = (![1, 0, 0, 0, 0, 0, 0, 0, 0] : Fin 9 → ℚ) 3
          - (![1, 0, 0, 0, 0, 0, 0, 0, 0] : Fin 9 → ℚ) 2) := by
  have hb := altRows_binary
  have hA := isOLS_of_normalEq altRows_ne_multi
  have hB := isOLS_of_normalEq altRows_ne_alt
  have hrk := altRows_fullrank
  exact ⟨hb, hA, hB, hrk, C8_base_group_reparam altRows _ _ hb hA hB hrk⟩

/-- Witness for C9 on the nine concrete `catRows`, both fits being the
intercept-only coefficient vector. -/
theorem C9_interaction_formula_equiv_witness :
    (∀ i, BinaryRow (catRows i)) ∧
    IsOLS (designMulti 9 catRows) (lwageV 9 catRows)
      ![1, 0, 0, 0, 0, 0, 0, 0, 0] ∧
    IsOLS (designInterCat 9 catRows) (lwageV 9 catRows)
      ![1, 0, 0, 0, 0, 0, 0, 0, 0] ∧
    FullColRank (designInterCat 9 catRows) ∧
    ((designInterCat 9 catRows).mulVec ![1, 0, 0, 0, 0, 0, 0, 0, 0]
        = (designMulti 9 catRows).mulVec ![1, 0, 0, 0, 0, 0, 0, 0, 0] ∧
      rSquared (designInterCat 9 catRows) (lwageV 9 catRows)
          ![1, 0, 0, 0, 0, 0, 0, 0, 0]
        = rSquared (designMulti 9 catRows) (lwageV 9 catRows)
            ![1, 0, 0, 0, 0, 0, 0, 0, 0] ∧
      fStat (designInterCat 9 catRows) (lwageV 9 catRows)
          ![1, 0, 0, 0, 0, 0, 0, 0, 0]
        = fStat (designMulti 9 catRows) (lwageV 9 catRows)
            ![1, 0, 0, 0, 0, 0, 0, 0, 0] ∧
      (![1, 0, 0, 0, 0, 0, 0, 0, 0] : Fin 9 → ℚ) 1
        = (![1, 0, 0, 0, 0, 0, 0, 0, 0] : Fin 9 → ℚ) 3 ∧
      (![1, 0, 0, 0, 0, 0, 0, 0, 0] : Fin 9 → ℚ) 2
        = (![1, 0, 0, 0, 0, 0, 0, 0, 0] : Fin 9 → ℚ) 1 ∧
      (![1, 0, 0, 0, 0, 0, 0, 0, 0] : Fin 9 → ℚ) 3
        = (![1, 0, 0, 0, 0, 0, 0, 0, 0] : Fin 9 → ℚ) 2
          - (![1, 0, 0, 0, 0, 0, 0, 0, 0] : Fin 9 → ℚ) 1
          - (![1, 0, 0, 0, 0, 0, 0, 0, 0] : Fin 9 → ℚ) 3) := by
  have hb := catRows_binary
  have hA := isOLS_of_normalEq catRows_ne_multi
  have hB := isOLS_of_normalEq catRows_ne_cat
  have hrk := catRows_fullrank
  exact ⟨hb, hA, hB, hrk,
    C9_interaction_formula_equiv catRows _ _ hb hA hB hrk⟩

/-- C10: regression on a constant and one dummy computes group means: in
the fit of `wage ~ 1 + female`, the intercept is the mean wage of the
`female = 0` rows and intercept plus `female` coefficient is the mean wage
of the `female = 1` rows (the value `describe()` reports for women). -/
theorem C10_comparison_of_means {n : ℕ} (r : Fin n → Row) (b : Fin 2 → ℚ)
    (hb : ∀ i, (r i).female = 0 ∨ (r i).female = 1)
    (h0 : (Finset.univ.filter (fun i : Fin n => (r i).female = 0)).Nonempty)
    (h1 : (Finset.univ.filter (fun i : Fin n => (r i).female = 1)).Nonempty)
    (hfit : IsOLS (designMeans n r) (wageV n r) b) :
    b 0 = groupMean n r 0 ∧ b 0 + b 1 = groupMean n r 1 := by
  have hne : (designMeans n r)ᵀ.mulVec (resid (designMeans n r) (wageV n r) b) = 0 :=
    normalEq_of_isOLS hfit
  have hE0 : (∑ i, ((r i).wage - (b 0 + (r i).female * b 1))) = 0 := by
    have h := congrFun hne 0
    simpa [resid, designMeans, wageV, Matrix.mulVec, Matrix.dotProduct,
      Fin.sum_univ_two, Matrix.transpose_apply] using h
  have hE1 : (∑ i, (r i).female * ((r i).wage - (b 0 + (r i).female * b 1))) = 0 := by
    have h := congrFun hne 1
    simpa [resid, designMeans, wageV, Matrix.mulVec, Matrix.dotProduct,
      Fin.sum_univ_two, Matrix.transpose_apply] using h
  have hsplit1 : (∑ i, (r i).female * ((r i).wage - (b 0 + (r i).female * b 1)))
      = ∑ i ∈ Finset.univ.filter (fun i : Fin n => (r i).female = 1),
          ((r i).wage - (b 0 + b 1)) := by
    rw [← Finset.sum_filter_add_sum_filter_not Finset.univ
      (fun i : Fin n => (r i).female = 1)]
    have hz : (∑ i ∈ Finset.univ.filter (fun i : Fin n => ¬(r i).female = 1),
        (r i).female * ((r i).wage - (b 0 + (r i).female * b 1))) = 0 := by
      apply Finset.sum_eq_zero
      intro i hi
      rcases hb i with h | h
      · rw [h, zero_mul]
      · rw [Finset.mem_filter] at hi
        exact absurd h hi.2
    rw [hz, add_zero]
    apply Finset.sum_congr rfl
    intro i hi
    rw [Finset.mem_filter] at hi
    rw [hi.2]
    ring
  have hE0' : (∑ i, (1 - (r i).female) * ((r i).wage - (b 0 + (r i).female * b 1))) = 0 := by
    have e : (∑ i, (1 - (r i).female) * ((r i).wage - (b 0 + (r i).female * b 1)))
        = (∑ i, ((r i).wage - (b 0 + (r i).female * b 1)))
          - ∑ i, (r i).female * ((r i).wage - (b 0 + (r i).female * b 1)) := by
      rw [← Finset.sum_sub_distrib]
      apply Finset.sum_congr rfl
      intro i _
      ring
    rw [e, hE0, hE1, sub_zero]
  have hsplit0 : (∑ i, (1 - (r i).female) * ((r i).wage - (b 0 + (r i).female * b 1)))
      = ∑ i ∈ Finset.univ.filter (fun i : Fin n => (r i).female = 0),
          ((r i).wage - b 0) := by
    rw [← Finset.sum_filter_add_sum_filter_not Finset.univ
      (fun i : Fin n => (r i).female = 0)]
    have hz : (∑ i ∈ Finset.univ.filter (fun i : Fin n => ¬(r i).female = 0),
        (1 - (r i).female) * ((r i).wage - (b 0 + (r i).female * b 1))) = 0 := by
      apply Finset.sum_eq_zero
      intro i hi
      rcases hb i with h | h
      · rw [Finset.mem_filter] at hi
        exact absurd h hi.2
      · rw [h]
        ring
    rw [hz, add_zero]
    apply Finset.sum_congr rfl
    intro i hi
    rw [Finset.mem_filter] at hi
    rw [hi.2]
    ring
  have hc1 : ((Finset.univ.filter (fun i : Fin n => (r i).female = 1)).card : ℚ) ≠ 0 := by
    rw [Nat.cast_ne_zero]
    exact Finset.card_ne_zero_of_mem h1.choose_spec
  have hc0 : ((Finset.univ.filter (fun i : Fin n => (r i).female = 0)).card : ℚ) ≠ 0 := by
    rw [Nat.cast_ne_zero]
    exact Finset.card_ne_zero_of_mem h0.choose_spec
  have hsum1 : (∑ i ∈ Finset.univ.filter (fun i : Fin n => (r i).female = 1), (r i).wage)
      = ((Finset.univ.filter (fun i : Fin n => (r i).female = 1)).card : ℚ) * (b 0 + b 1) := by
    have h := hsplit1 ▸ hE1
    rw [Finset.sum_sub_distrib, sub_eq_zero] at h
    rw [h, Finset.sum_const, nsmul_eq_mul]
  have hsum0 : (∑ i ∈ Finset.univ.filter (fun i : Fin n => (r i).female = 0), (r i).wage)
      = ((Finset.univ.filter (fun i : Fin n => (r i).female = 0)).card : ℚ) * b 0 := by
    have h := hsplit0 ▸ hE0'
    rw [Finset.sum_sub_distrib, sub_eq_zero] at h
    rw [h, Finset.sum_const, nsmul_eq_mul]
  constructor
  · unfold groupMean
    rw [hsum0, mul_comm, mul_div_assoc, div_self hc0, mul_one]
  · unfold groupMean
    rw [hsum1, mul_comm, mul_div_assoc, div_self hc1, mul_one]

/-- Witness for C10 on two concrete rows: a man earning 2 and a woman
earning 4, with fitted coefficients `(2, 2)`. -/
theorem C10_comparison_of_means_witness :
    (∀ i, (meanRows i).female = 0 ∨ (meanRows i).female = 1) ∧
    (Finset.univ.filter (fun i : Fin 2 => (meanRows i).female = 0)).Nonempty ∧
    (Finset.univ.filter (fun i : Fin 2 => (meanRows i).female = 1)).Nonempty ∧
    IsOLS (designMeans 2 meanRows) (wageV 2 meanRows) ![2, 2] ∧
    ((![2, 2] : Fin 2 → ℚ) 0 = groupMean 2 meanRows 0 ∧
      (![2, 2] : Fin 2 → ℚ) 0 + (![2, 2] : Fin 2 → ℚ) 1 = groupMean 2 meanRows 1) := by
  have hb : ∀ i, (meanRows i).female = 0 ∨ (meanRows i).female = 1 := by
    intro i
    fin_cases i <;> norm_num [meanRows, mkRow]
  have h0 : (Finset.univ.filter (fun i : Fin 2 => (meanRows i).female = 0)).Nonempty := by
    refine ⟨0, ?_⟩
    rw [Finset.mem_filter]
    exact ⟨Finset.mem_univ 0, rfl⟩
  have h1 : (Finset.univ.filter (fun i : Fin 2 => (meanRows i).female = 1)).Nonempty := by
    refine ⟨1, ?_⟩
    rw [Finset.mem_filter]
    exact ⟨Finset.mem_univ 1, rfl⟩
  have hne : normalEq (designMeans 2 meanRows) (wageV 2 meanRows) ![2, 2] := by
    unfold normalEq resid
    funext j
    fin_cases j <;>
      norm_num [designMeans, wageV, meanRows, mkRow, Matrix.mulVec,
        Matrix.dotProduct, Fin.sum_univ_two]
  have hfit := isOLS_of_normalEq hne
  exact ⟨hb, h0, h1, hfit,
    C10_comparison_of_means meanRows ![2, 2] hb h0 h1 hfit⟩

end MLRDummy
